import Mathlib

/-!
Shallow embedding of the trajectory-tracking cost class `sac::cost`
(src/user/cost.hpp) of the iSAC quadrotor controller.

The class stores scratch members (`J1_`, `x_tf_`, `t0_`, `tf_`, `J1steps_`,
`mx_tf_`, `mxdes_tf_`, `indx_`) that its methods mutate; we embed it as a
`CostState` structure with explicit state passing.  The external
collaborators the header references but does not define (the running-cost
integrand `inc_cost` with its `begin()`/`end()` accessors, the state
interpolator `state_intp`, the angle normalizer `AngleWrap`, the projector
`State2Mat`, the reference accessor `get_DesTraj`, the cost matrix `P`, the
wrap-index array `x_wrap`, and boost's `integrate_adaptive`) become fields
of an `Env` record, or spec-modelled definitions where a claim needs their
behaviour.  Doubles are modelled as rationals.
-/

namespace SAC

variable {n : ℕ}

/-- Modelled from the spec: `AngleWrap` (the angle normalizer called at
cost.hpp lines 49 and 64) is not under src/; per spec section 4.1 it rewrites a
periodic component to the equivalent value in a canonical periodic range.
For a period `T` this maps `th` to the representative of `th + T*ZZ` in
`(-T/2, T/2]` (the spec's example range `(-pi, pi]` is the case `T = 2*pi`). -/
def AngleWrap (T th : ℚ) : ℚ := th - T * ⌈th / T - 1 / 2⌉

/-- The angle-wrapping loop of `get_term_cost` / `get_dmdx`
(`for (indx_ = 0; indx_ < wrap_size_; ++indx_) AngleWrap(x_tf_[x_wrap[indx_]])`):
sequentially rewrites, in place, exactly the components of the state vector
whose indices are listed in `x_wrap`. -/
def wrapState (T : ℚ) (idxs : List (Fin n)) (x : Fin n → ℚ) : Fin n → ℚ :=
  idxs.foldl (fun v j => Function.update v j (AngleWrap T (v j))) x

/-- The fixed epsilon `double eps = 1E-7;` of `cost::compute_cost`. -/
def intEps : ℚ := 1 / 10000000

/-- The external collaborators of the `cost` class, fixed for one
configuration: window accessors `m_lofx.begin()` / `m_lofx.end()`, the state
interpolator `m_x_intp`, the angle period and wrap-index set, the projector
`State2Mat`, the reference-trajectory accessor `get_DesTraj`, the quadratic
cost matrix `P`, and the behaviour of the adaptive integrator on a forward
window (`runIntegral a b` is the running-cost integral it accumulates over
`[a, b]`, `runSteps a b` the accepted-step count it reports). -/
structure Env (n : ℕ) where
  lofx_begin : ℚ
  lofx_end : ℚ
  x_intp : ℚ → Fin n → ℚ
  period : ℚ
  x_wrap : List (Fin n)
  State2Mat : (Fin n → ℚ) → Fin n → ℚ
  get_DesTraj : ℚ → Fin n → ℚ
  P : Matrix (Fin n) (Fin n) ℚ
  runIntegral : ℚ → ℚ → ℚ
  runSteps : ℚ → ℚ → ℕ

/-- The mutable members of `sac::cost`:
`state_type J1_, x_tf_; double t0_, tf_; size_t J1steps_;`
`Eigen::Matrix mx_tf_, mxdes_tf_; size_t indx_;`
(`J1_` has length 1, so it is a single rational here). -/
structure CostState (n : ℕ) where
  J1_ : ℚ
  x_tf_ : Fin n → ℚ
  t0_ : ℚ
  tf_ : ℚ
  J1steps_ : ℕ
  mx_tf_ : Fin n → ℚ
  mxdes_tf_ : Fin n → ℚ
  indx_ : ℕ

/-- The constructor `cost(state_intp&)`: `J1_(1)` and `x_tf_(xlen)` are
zero-initialized vectors, `t0_(0.0)`, `tf_(0.0)`, `J1steps_(0)`,
`mxdes_tf_` is the zero matrix; `mx_tf_` and `indx_` are left uninitialized
by the initializer list, so their indeterminate contents are parameters. -/
def cost_init (mx0 : Fin n → ℚ) (i0 : ℕ) : CostState n :=
  { J1_ := 0, x_tf_ := fun _ => 0, t0_ := 0, tf_ := 0, J1steps_ := 0,
    mx_tf_ := mx0, mxdes_tf_ := fun _ => 0, indx_ := i0 }

/-- `cost::get_term_cost()` (cost.hpp lines 45-53): reads `t0_`, `tf_` from
the integrand accessors, samples the state at `tf_`, wraps the configured
angle components, projects with `State2Mat`, fetches the reference point,
and returns the quadratic form
`((mx_tf_ - mxdes_tf_).transpose() * P * (mx_tf_ - mxdes_tf_))[0]`.
Returns the value together with the mutated object state. -/
def get_term_cost (e : Env n) (s : CostState n) : ℚ × CostState n :=
  let t0 := e.lofx_begin
  let tf := e.lofx_end
  let xtf := wrapState e.period e.x_wrap (e.x_intp tf)
  let mx := e.State2Mat xtf
  let mxdes := e.get_DesTraj tf
  (Matrix.dotProduct (mx - mxdes) (Matrix.mulVec e.P (mx - mxdes)),
   { s with
      t0_ := t0
      tf_ := tf
      x_tf_ := xtf
      mx_tf_ := mx
      mxdes_tf_ := mxdes
      indx_ := e.x_wrap.length })

/-- `cost::get_dmdx()` (cost.hpp lines 60-68): the same pipeline as
`get_term_cost`, returning the row vector
`(mx_tf_ - mxdes_tf_).transpose() * P` together with the mutated state. -/
def get_dmdx (e : Env n) (s : CostState n) : (Fin n → ℚ) × CostState n :=
  let t0 := e.lofx_begin
  let tf := e.lofx_end
  let xtf := wrapState e.period e.x_wrap (e.x_intp tf)
  let mx := e.State2Mat xtf
  let mxdes := e.get_DesTraj tf
  (Matrix.vecMul (mx - mxdes) e.P,
   { s with
      t0_ := t0
      tf_ := tf
      x_tf_ := xtf
      mx_tf_ := mx
      mxdes_tf_ := mxdes
      indx_ := e.x_wrap.length })

/-- Modelled from the spec: `boost::numeric::odeint::integrate_adaptive`
with a controlled `runge_kutta_dopri5` stepper and positive initial step
(library code, not under src/).  Per spec section 4.6 the final integrated
value equals the seed plus the running-cost integral and the routine returns
the accepted-step count; when the end time does not lie strictly ahead of
the start time the stepping loop never runs, so it takes zero steps and
leaves the seeded value unchanged. -/
def integrate_adaptive (e : Env n) (y0 a b : ℚ) : ℚ × ℕ :=
  if a < b then (y0 + e.runIntegral a b, e.runSteps a b) else (y0, 0)

/-- `cost::compute_cost(state_type&)` (cost.hpp lines 107-121): integrates
the running cost from `t0_` to `tf_ - eps` (`eps = 1E-7`) on top of the
seeded accumulator `term_cost`, returning the updated accumulator and the
step count reported by the integrator. -/
def compute_cost (e : Env n) (s : CostState n) (term_cost : ℚ) : ℚ × ℕ :=
  integrate_adaptive e term_cost s.t0_ (s.tf_ - intEps)

/-- `cost::update()` (cost.hpp lines 93-98): re-reads the window bounds,
seeds `J1_[0]` with `get_term_cost()`, then stores `compute_cost(J1_)`'s
result in `J1_` and its step count in `J1steps_`. -/
def update (e : Env n) (s : CostState n) : CostState n :=
  let s1 : CostState n := { s with t0_ := e.lofx_begin, tf_ := e.lofx_end }
  let r := get_term_cost e s1
  let s2 : CostState n := { r.2 with J1_ := r.1 }
  let c := compute_cost e s2 s2.J1_
  { s2 with J1_ := c.1, J1steps_ := c.2 }

/-- `cost::operator double()` (cost.hpp line 81): `return J1_[0];`. -/
def toDouble (s : CostState n) : ℚ := s.J1_

/-- `cost::steps()` (cost.hpp line 87): `return J1steps_;`. -/
def steps (s : CostState n) : ℕ := s.J1steps_

/-- A sequence of `get_dmdx` calls, threading the object state through
(each call may see a different collaborator configuration). -/
def dmdxRun (es : List (Env n)) (s : CostState n) : CostState n :=
  es.foldl (fun st e => (get_dmdx e st).2) s

/-- The state sampled at the final time with the configured angle
components wrapped, as built inside `get_term_cost` / `get_dmdx`. -/
def sampledWrapped (e : Env n) : Fin n → ℚ :=
  wrapState e.period e.x_wrap (e.x_intp e.lofx_end)

/-- The projected terminal state `mx_tf_` produced by the pipeline. -/
def projAtTf (e : Env n) : Fin n → ℚ := e.State2Mat (sampledWrapped e)

/-- The desired state `mxdes_tf_` fetched at the final time. -/
def desAtTf (e : Env n) : Fin n → ℚ := e.get_DesTraj e.lofx_end

/-- The terminal-cost value `(mx - mxdes)^T P (mx - mxdes)` as a pure
function of the collaborators. -/
def termCostVal (e : Env n) : ℚ :=
  Matrix.dotProduct (projAtTf e - desAtTf e)
    (Matrix.mulVec e.P (projAtTf e - desAtTf e))

/-- The gradient row vector `(mx - mxdes)^T P` as a pure function of the
collaborators. -/
def dmdxVal (e : Env n) : Fin n → ℚ :=
  Matrix.vecMul (projAtTf e - desAtTf e) e.P

/-- Positive semidefiniteness of the quadratic form, over the rationals. -/
def QuadPosSemidef (M : Matrix (Fin n) (Fin n) ℚ) : Prop :=
  ∀ v : Fin n → ℚ, 0 ≤ Matrix.dotProduct v (Matrix.mulVec M v)

/-- Strict positive definiteness of the quadratic form, over the rationals. -/
def QuadPosDef (M : Matrix (Fin n) (Fin n) ℚ) : Prop :=
  ∀ v : Fin n → ℚ, v ≠ 0 → 0 < Matrix.dotProduct v (Matrix.mulVec M v)

/-- For a positive period, `AngleWrap` lands in the canonical range
`(-T/2, T/2]`. -/
lemma angleWrap_range (T th : ℚ) (hT : 0 < T) :
    -(T / 2) < AngleWrap T th ∧ AngleWrap T th ≤ T / 2 := by
  unfold AngleWrap
  have h1 : th / T - 1 / 2 ≤ ((⌈th / T - 1 / 2⌉ : ℤ) : ℚ) := Int.le_ceil _
  have h2 : ((⌈th / T - 1 / 2⌉ : ℤ) : ℚ) < th / T - 1 / 2 + 1 :=
    Int.ceil_lt_add_one _
  have hcan : T * (th / T) = th := by field_simp
  constructor
  · nlinarith [mul_lt_mul_of_pos_left h2 hT]
  · nlinarith [mul_le_mul_of_nonneg_left h1 hT.le]

/-- `AngleWrap` preserves the represented angle modulo the period. -/
lemma angleWrap_equiv (T th : ℚ) : ∃ k : ℤ, AngleWrap T th = th + T * k :=
  ⟨-⌈th / T - 1 / 2⌉, by unfold AngleWrap; push_cast; ring⟩

lemma wrapState_nil (T : ℚ) (x : Fin n → ℚ) : wrapState T [] x = x := rfl

lemma wrapState_cons (T : ℚ) (j : Fin n) (l : List (Fin n)) (x : Fin n → ℚ) :
    wrapState T (j :: l) x
      = wrapState T l (Function.update x j (AngleWrap T (x j))) := rfl

/-- Components whose index is not in the wrap list are left untouched. -/
lemma wrapState_notMem (T : ℚ) (l : List (Fin n)) (x : Fin n → ℚ) (i : Fin n)
    (h : i ∉ l) : wrapState T l x i = x i := by
  induction l generalizing x with
  | nil => rfl
  | cons j l ih =>
      simp only [List.mem_cons, not_or] at h
      rw [wrapState_cons, ih _ h.2]
      exact Function.update_noteq h.1 _ _

/-- Every component of the wrapped state represents the same angle as the
input component, modulo the period. -/
lemma wrapState_equiv (T : ℚ) (l : List (Fin n)) (x : Fin n → ℚ) (i : Fin n) :
    ∃ k : ℤ, wrapState T l x i = x i + T * k := by
  induction l generalizing x with
  | nil => exact ⟨0, by simp [wrapState_nil]⟩
  | cons j l ih =>
      rw [wrapState_cons]
      obtain ⟨k, hk⟩ := ih (Function.update x j (AngleWrap T (x j)))
      by_cases hij : i = j
      · subst hij
        obtain ⟨m, hm⟩ := angleWrap_equiv T (x i)
        refine ⟨m + k, ?_⟩
        rw [hk, Function.update_same, hm]
        push_cast
        ring
      · exact ⟨k, by rw [hk, Function.update_noteq hij]⟩

/-- Components listed in the wrap list end up in the canonical range. -/
lemma wrapState_mem_range (T : ℚ) (hT : 0 < T) (l : List (Fin n))
    (x : Fin n → ℚ) (i : Fin n) (h : i ∈ l) :
    -(T / 2) < wrapState T l x i ∧ wrapState T l x i ≤ T / 2 := by
  induction l generalizing x with
  | nil => cases h
  | cons j l ih =>
      rw [wrapState_cons]
      by_cases hl : i ∈ l
      · exact ih _ hl
      · have hij : i = j := by
          rcases List.mem_cons.mp h with h1 | h2
          · exact h1
          · exact absurd h2 hl
        subst hij
        rw [wrapState_notMem T l _ i hl, Function.update_same]
        exact angleWrap_range T (x i) hT

/-- Shifting the seed of the modelled integrator shifts its output by the
same amount: the integrator adds the running-cost integral on top of
whatever value it was seeded with. -/
lemma integrate_adaptive_shift (e : Env n) (y0 a b : ℚ) :
    (integrate_adaptive e y0 a b).1 = y0 + (integrate_adaptive e 0 a b).1 := by
  unfold integrate_adaptive
  by_cases h : a < b <;> simp [h]

/-- The identity matrix is positive semidefinite over `ℚ`. -/
lemma quadPosSemidef_one : QuadPosSemidef (1 : Matrix (Fin n) (Fin n) ℚ) := by
  intro v
  rw [Matrix.one_mulVec]
  exact Finset.sum_nonneg fun i _ => mul_self_nonneg (v i)

/-- The identity matrix is positive definite over `ℚ`. -/
lemma quadPosDef_one : QuadPosDef (1 : Matrix (Fin n) (Fin n) ℚ) := by
  intro v hv
  rw [Matrix.one_mulVec]
  obtain ⟨j, hj⟩ := Function.ne_iff.mp hv
  have hj0 : v j ≠ 0 := by simpa using hj
  refine Finset.sum_pos' (fun i _ => mul_self_nonneg (v i))
    ⟨j, Finset.mem_univ j, mul_self_pos.mpr hj0⟩

lemma get_term_cost_fst (e : Env n) (s : CostState n) :
    (get_term_cost e s).1 = termCostVal e := rfl

lemma get_dmdx_fst (e : Env n) (s : CostState n) :
    (get_dmdx e s).1 = dmdxVal e := rfl

lemma update_J1 (e : Env n) (s : CostState n) :
    (update e s).J1_
      = (integrate_adaptive e (termCostVal e) e.lofx_begin
          (e.lofx_end - intEps)).1 := rfl

lemma update_steps (e : Env n) (s : CostState n) :
    (update e s).J1steps_
      = (integrate_adaptive e (termCostVal e) e.lofx_begin
          (e.lofx_end - intEps)).2 := rfl

/-- C1: `update()` stores as total cost the value obtained by seeding the
integration accumulator with the terminal cost and integrating the
running-cost ODE from `t0` to `tf - eps` (`eps = 1e-7`) with the adaptive
integrator, so the stored value equals terminal cost plus the running-cost
integral, and the stored step count is the count the integrator reports. -/
theorem C1_update_total_cost (e : Env n) (s : CostState n) :
    (update e s).J1_
        = (integrate_adaptive e (termCostVal e) e.lofx_begin
            (e.lofx_end - intEps)).1
      ∧ (update e s).J1_
        = termCostVal e
            + (integrate_adaptive e 0 e.lofx_begin (e.lofx_end - intEps)).1
      ∧ (update e s).J1steps_
        = (integrate_adaptive e (termCostVal e) e.lofx_begin
            (e.lofx_end - intEps)).2 := by
  refine ⟨rfl, ?_, rfl⟩
  rw [update_J1, integrate_adaptive_shift]

/-- C2: `get_term_cost()` returns the quadratic form
`(x - x_des)^T P (x - x_des)` on the projected terminal state; for
symmetric positive-semidefinite `P` the result is non-negative, and for
strictly positive-definite `P` it is zero exactly when the projected state
equals the desired state. -/
theorem C2_term_cost_quadratic (e : Env n) (s : CostState n)
    (hsym : e.P.IsSymm) (hpsd : QuadPosSemidef e.P) :
    (get_term_cost e s).1
        = Matrix.dotProduct (projAtTf e - desAtTf e)
            (Matrix.mulVec e.P (projAtTf e - desAtTf e))
      ∧ 0 ≤ (get_term_cost e s).1
      ∧ (QuadPosDef e.P →
          ((get_term_cost e s).1 = 0 ↔ projAtTf e = desAtTf e)) := by
  refine ⟨rfl, hpsd _, fun hpd => ⟨?_, ?_⟩⟩
  · intro h0
    by_contra hne
    have hd : projAtTf e - desAtTf e ≠ 0 := sub_ne_zero.mpr hne
    exact absurd h0 (hpd _ hd).ne'
  · intro heq
    have hd : projAtTf e - desAtTf e = 0 := sub_eq_zero_of_eq heq
    show Matrix.dotProduct (projAtTf e - desAtTf e)
        (Matrix.mulVec e.P (projAtTf e - desAtTf e)) = 0
    rw [hd]
    simp

/-- A concrete collaborator configuration over a one-dimensional state:
identity cost matrix, constant sampled state `3`, constant reference `3`,
window `[0, 1]`, no wrapped components. -/
def envC2 : Env 1 :=
  { lofx_begin := 0
    lofx_end := 1
    x_intp := fun _ _ => 3
    period := 2
    x_wrap := []
    State2Mat := fun v => v
    get_DesTraj := fun _ _ => 3
    P := 1
    runIntegral := fun _ _ => 0
    runSteps := fun _ _ => 0 }

/-- A freshly constructed cost object over a one-dimensional state. -/
def stW : CostState 1 := cost_init (fun _ => 0) 0

/-- Witness for C2 at a concrete configuration where the projected state
matches the reference: the terminal cost is non-negative and exactly 0. -/
theorem C2_witness :
    0 ≤ (get_term_cost envC2 stW).1 ∧ (get_term_cost envC2 stW).1 = 0 := by
  have h := C2_term_cost_quadratic envC2 stW Matrix.isSymm_one
    quadPosSemidef_one
  exact ⟨h.2.1, (h.2.2 quadPosDef_one).mpr rfl⟩

/-- C3: `get_dmdx()` returns the row vector `(x - x_des)^T P` built through
the same sample-wrap-project-reference pipeline as `get_term_cost()` (the
terminal cost is the dot product of this row vector with the deviation),
and the value is recomputed from the collaborators on every call,
independent of any state left by previous calls. -/
theorem C3_dmdx_formula (e e1 : Env n) (s s1 s2 : CostState n) :
    (get_dmdx e s).1 = Matrix.vecMul (projAtTf e - desAtTf e) e.P
      ∧ (get_dmdx e s1).1 = (get_dmdx e s2).1
      ∧ (get_dmdx e ((get_dmdx e1 s).2)).1
        = Matrix.vecMul (projAtTf e - desAtTf e) e.P
      ∧ (get_term_cost e s).1
        = Matrix.dotProduct ((get_dmdx e s).1) (projAtTf e - desAtTf e) := by
  refine ⟨rfl, rfl, rfl, ?_⟩
  show Matrix.dotProduct (projAtTf e - desAtTf e)
      (Matrix.mulVec e.P (projAtTf e - desAtTf e))
    = Matrix.dotProduct (Matrix.vecMul (projAtTf e - desAtTf e) e.P)
        (projAtTf e - desAtTf e)
  exact Matrix.dotProduct_mulVec _ _ _

/-- When the upper integration bound `tf - eps` does not lie strictly ahead
of `t0`, the integrator loop never runs: `update()` stores the bare terminal
cost and a step count of 0. -/
lemma update_noop (e : Env n) (s : CostState n)
    (hb : ¬ e.lofx_begin < e.lofx_end - intEps) :
    (update e s).J1_ = termCostVal e ∧ (update e s).J1steps_ = 0 := by
  have hJ := update_J1 e s
  have hS := update_steps e s
  unfold integrate_adaptive at hJ hS
  rw [if_neg hb] at hJ hS
  exact ⟨hJ, hS⟩

/-- C4: for a zero-length window (`t0 == tf`), `update()` stores a total
cost exactly equal to the terminal cost, with 0 integration steps and the
seeded accumulator left unchanged by the integrator. -/
theorem C4_zero_window (e : Env n) (s : CostState n)
    (h : e.lofx_begin = e.lofx_end) :
    (update e s).J1_ = termCostVal e ∧ (update e s).J1steps_ = 0 := by
  refine update_noop e s ?_
  rw [h]
  unfold intEps
  intro hc
  linarith

/-- A zero-length-window configuration: `t0 = tf = 0`. -/
def envC4 : Env 1 :=
  { envC2 with lofx_end := 0 }

/-- Witness for C4 at a concrete zero-length window. -/
theorem C4_witness :
    envC4.lofx_begin = envC4.lofx_end
      ∧ (update envC4 stW).J1steps_ = 0
      ∧ (update envC4 stW).J1_ = termCostVal envC4 := by
  have h := C4_zero_window envC4 stW rfl
  exact ⟨rfl, h.2, h.1⟩

/-- An inverted window: `t0 = 1 > tf = 0`, sampled state `3`, reference
`0`, identity cost matrix, so the terminal cost is `9`. -/
def envC5 : Env 1 :=
  { envC2 with
      lofx_begin := 1
      lofx_end := 0
      get_DesTraj := fun _ _ => 0 }

/-- Counterexample for C5: on an inverted window (`t0 = 1 > tf = 0`)
`update()` does not fail; it runs to completion and silently stores a
result — the terminal cost `9` with step count 0. -/
theorem C5_counterexample :
    envC5.lofx_end < envC5.lofx_begin
      ∧ (update envC5 stW).J1_ = 9
      ∧ (update envC5 stW).J1steps_ = 0 := by
  have h := update_noop envC5 stW (by norm_num [envC5, envC2, intEps])
  refine ⟨by norm_num [envC5, envC2], ?_, h.2⟩
  rw [h.1]
  simp [termCostVal, projAtTf, desAtTf, sampledWrapped, envC5, envC2,
    wrapState_nil, Matrix.one_mulVec, Matrix.dotProduct, Fin.sum_univ_one]
  norm_num

/-- C5 (amended): `update()` performs no window validation and has no
failure path: when `t0 > tf` the adaptive integrator's stepping loop never
runs (no backward integration), and `update()` silently stores the terminal
cost as the total with step count 0. -/
theorem C5_amended_no_failure (e : Env n) (s : CostState n)
    (h : e.lofx_end < e.lofx_begin) :
    (update e s).J1_ = termCostVal e ∧ (update e s).J1steps_ = 0 := by
  refine update_noop e s ?_
  unfold intEps
  intro hc
  linarith

/-- Witness for the amended C5 at the concrete inverted window. -/
theorem C5_witness :
    envC5.lofx_end < envC5.lofx_begin
      ∧ (update envC5 stW).J1_ = termCostVal envC5 := by
  have h := C5_amended_no_failure envC5 stW (by norm_num [envC5, envC2])
  exact ⟨by norm_num [envC5, envC2], h.1⟩

/-- Counterexample for C6: reading the total cost of a freshly constructed
cost object neither fails nor is indeterminate: `J1_(1)` value-initializes
its single element, so the numeric conversion returns exactly 0 whatever
the indeterminate members `mx_tf_` and `indx_` hold. -/
theorem C6_counterexample :
    toDouble (cost_init (n := 1) (fun _ => 7) 42) = 0
      ∧ toDouble (cost_init (n := 1) (fun _ => 9) 3) = 0 :=
  ⟨rfl, rfl⟩

/-- C6 (amended): before any `update()` the numeric conversion returns the
constructor-initialized value 0 (for every indeterminate content of the
uninitialized members); after an `update()` it returns the total cost that
update computed. -/
theorem C6_value_accessor (mx0 : Fin n → ℚ) (i0 : ℕ) (e : Env n)
    (s : CostState n) :
    toDouble (cost_init mx0 i0) = 0
      ∧ toDouble (update e s)
        = (integrate_adaptive e (termCostVal e) e.lofx_begin
            (e.lofx_end - intEps)).1 :=
  ⟨rfl, rfl⟩

/-- C7: with a fixed collaborator configuration, repeated `update()` calls
are idempotent — every call rebuilds the whole stored state from the
collaborators alone, so any two calls produce identical objects (in
particular identical total cost and step count). -/
theorem C7_update_idempotent (e : Env n) (s s1 s2 : CostState n) :
    update e s1 = update e s2 ∧ update e (update e s) = update e s :=
  ⟨rfl, rfl⟩

/-- C8: every evaluation re-reads the window bounds from the integrand's
accessors at call time: the stored `t0_`/`tf_` always equal the accessor
values of the environment of that call, the returned values never depend on
the incoming object state, and a call following an `update()` against a
different environment uses its own environment's bounds, not the stale
stored ones. -/
theorem C8_bounds_from_accessors (e e0 : Env n) (s s1 s2 : CostState n) :
    ((get_term_cost e s).2.t0_ = e.lofx_begin
        ∧ (get_term_cost e s).2.tf_ = e.lofx_end)
      ∧ ((get_dmdx e s).2.t0_ = e.lofx_begin
        ∧ (get_dmdx e s).2.tf_ = e.lofx_end)
      ∧ ((update e s).t0_ = e.lofx_begin ∧ (update e s).tf_ = e.lofx_end)
      ∧ (get_term_cost e s1).1 = (get_term_cost e s2).1
      ∧ (get_dmdx e s1).1 = (get_dmdx e s2).1
      ∧ (update e s1).J1_ = (update e s2).J1_
      ∧ (update e s1).J1steps_ = (update e s2).J1steps_
      ∧ (get_term_cost e (update e0 s)).1 = termCostVal e
      ∧ (update e (update e0 s)).J1_ = (update e s).J1_ :=
  ⟨⟨rfl, rfl⟩, ⟨rfl, rfl⟩, ⟨rfl, rfl⟩, rfl, rfl, rfl, rfl, rfl, rfl⟩

/-- C9: the angle-normalization loop rewrites exactly the components whose
indices are listed in the wrap-index set — each to the equivalent angle in
the canonical range `(-T/2, T/2]` — and leaves every other component
exactly unchanged. -/
theorem C9_angle_normalization (T : ℚ) (hT : 0 < T) (idxs : List (Fin n))
    (x : Fin n → ℚ) (i : Fin n) :
    (i ∉ idxs → wrapState T idxs x i = x i)
      ∧ (i ∈ idxs →
          -(T / 2) < wrapState T idxs x i ∧ wrapState T idxs x i ≤ T / 2)
      ∧ ∃ k : ℤ, wrapState T idxs x i = x i + T * k :=
  ⟨wrapState_notMem T idxs x i,
   wrapState_mem_range T hT idxs x i,
   wrapState_equiv T idxs x i⟩

/-- Witness for C9: over a two-component state with wrap set `[0]` and
period 2, component 1 is untouched while component 0 (value 5) is wrapped
into `(-1, 1]`. -/
theorem C9_witness :
    wrapState (n := 2) 2 [0] (fun _ => 5) 1 = 5
      ∧ -(2 / 2 : ℚ) < wrapState (n := 2) 2 [0] (fun _ => 5) 0
      ∧ wrapState (n := 2) 2 [0] (fun _ => 5) 0 ≤ 2 / 2 := by
  have h1 := C9_angle_normalization (n := 2) 2 (by norm_num) [0]
    (fun _ => 5) 1
  have h0 := C9_angle_normalization (n := 2) 2 (by norm_num) [0]
    (fun _ => 5) 0
  exact ⟨h1.1 (by decide), (h0.2.1 (by decide)).1, (h0.2.1 (by decide)).2⟩

/-- A `get_dmdx` call leaves the stored cost and step count untouched. -/
lemma dmdxRun_preserves (es : List (Env n)) (s : CostState n) :
    (dmdxRun es s).J1_ = s.J1_ ∧ (dmdxRun es s).J1steps_ = s.J1steps_ := by
  induction es generalizing s with
  | nil => exact ⟨rfl, rfl⟩
  | cons e es ih =>
      have h := ih ((get_dmdx e s).2)
      exact ⟨h.1, h.2⟩

/-- C10: any sequence of `get_dmdx()` calls — in particular after an
`update()` — changes neither the stored total cost read by the numeric
conversion nor the stored step count, even though each call overwrites the
shared scratch members (sampled state, window bounds, desired state). -/
theorem C10_dmdx_frame (es : List (Env n)) (e0 : Env n) (s : CostState n) :
    toDouble (dmdxRun es (update e0 s)) = toDouble (update e0 s)
      ∧ steps (dmdxRun es (update e0 s)) = steps (update e0 s)
      ∧ toDouble (dmdxRun es s) = toDouble s
      ∧ steps (dmdxRun es s) = steps s
      ∧ (get_dmdx e0 s).2.x_tf_ = sampledWrapped e0
      ∧ (get_dmdx e0 s).2.tf_ = e0.lofx_end
      ∧ (get_dmdx e0 s).2.mxdes_tf_ = desAtTf e0 :=
  ⟨(dmdxRun_preserves es (update e0 s)).1,
   (dmdxRun_preserves es (update e0 s)).2,
   (dmdxRun_preserves es s).1,
   (dmdxRun_preserves es s).2,
   rfl, rfl, rfl⟩

end SAC
